import Mathlib

/-!
Verification of the hoolamike modlist installer against its specification.

The definitions below are a shallow embedding of the relevant Rust source:

* modlist_json/directive/archive_hash_path.rs : ArchiveHashPath and its
  hand-written Serialize/Deserialize implementations;
* install_modlist/directives.rs : directive kinds, priorities, and the
  dispatch pipeline of DirectivesHandler::handle_directives;
* compression/sevenz.rs and compression/zip.rs : the archive adapters
  (path resolution, solid-block grouping, size-checked extraction);
* install_modlist/directives/from_archive.rs : the extension whitelist and
  the copy/validation logic;
* install_modlist/download_cache.rs : the base64 encoding of u64 hashes.

Machine integers are modelled as Nat with explicit bounds where overflow
matters; fallible Rust code returns Except/Option; the concurrency in
handle_directives and the nested-archive service is modelled by explicit
step relations over small state machines.
-/

/- ### ArchiveHashPath and its serde implementations
   (modlist_json/directive/archive_hash_path.rs, utils.rs) -/

/-- Embedding of utils.rs MaybeWindowsPath: a newtype over a string. -/
structure MaybeWindowsPath where
  s : String
deriving DecidableEq, Repr

/-- Embedding of ArchiveHashPath: a source hash and a list of path segments. -/
structure ArchiveHashPath where
  source_hash : String
  path : List MaybeWindowsPath
deriving DecidableEq, Repr

/-- Lowercase hex digit, as written by serde_json for control-character escapes. -/
def hexChar (n : Nat) : Char :=
  if n < 10 then Char.ofNat (48 + n) else Char.ofNat (87 + n)

/-- How serde_json escapes one character inside a JSON string literal. -/
def jsonEscapeChar (c : Char) : List Char :=
  if c = '"' then ['\\', '"']
  else if c = '\\' then ['\\', '\\']
  else if c.toNat < 32 then
    if c = '\x08' then ['\\', 'b']
    else if c = '\t' then ['\\', 't']
    else if c = '\n' then ['\\', 'n']
    else if c = '\x0c' then ['\\', 'f']
    else if c = '\r' then ['\\', 'r']
    else ['\\', 'u', '0', '0', hexChar (c.toNat / 16), hexChar (c.toNat % 16)]
  else [c]

/-- serde_json::to_string of a plain string: the quoted, escaped JSON literal.
    This is what the Serialize impl of ArchiveHashPath applies to every path
    segment before pushing it into the output array. -/
def jsonEncodeString (str : String) : String :=
  String.mk ('"' :: ((str.data.map jsonEscapeChar).flatten ++ ['"']))

/-- Embedding of the hand-written Serialize impl for ArchiveHashPath: the
    output array is the source hash followed by serde_json::to_string of each
    path segment (archive_hash_path.rs lines 22-38). -/
def serializeArchiveHashPath (a : ArchiveHashPath) : List String :=
  a.source_hash :: a.path.map (fun p => jsonEncodeString p.s)

/-- Embedding of the hand-written Deserialize impl for ArchiveHashPath: the
    input array of strings is parsed as NonEmpty (head plus tail), the head
    becomes the source hash and the tail the path segments, taken verbatim
    (archive_hash_path.rs lines 40-50). An empty array fails to parse. -/
def deserializeArchiveHashPath (l : List String) : Option ArchiveHashPath :=
  match l with
  | [] => none
  | h :: t => some { source_hash := h, path := t.map MaybeWindowsPath.mk }

/- ### Directive kinds, priorities and the dispatch pipeline
   (install_modlist/directives.rs) -/

/-- Embedding of modlist_json DirectiveKind: the six directive kinds. -/
inductive DirectiveKind where
  | InlineFile
  | FromArchive
  | PatchedFromArchive
  | RemappedInlineFile
  | TransformedTexture
  | CreateBSA
deriving DecidableEq, Repr, Inhabited

/-- Embedding of DirectiveKind::priority (directives.rs lines 107-120). -/
def DirectiveKind.priority : DirectiveKind → Nat
  | .InlineFile => 10
  | .FromArchive => 11
  | .PatchedFromArchive => 12
  | .RemappedInlineFile => 13
  | .TransformedTexture => 240
  | .CreateBSA => 250

/-- Dispatch-relevant projection of a Directive: its kind (which determines
    the sort priority) and an identifier standing for its payload. The
    per-kind handler behaviour is abstracted as a function parameter, which
    mirrors how DirectivesHandler::handle dispatches on the kind. -/
structure DirectiveItem where
  kind : DirectiveKind
  id : Nat
deriving DecidableEq, Repr, Inhabited

/-- Insert a directive behind every already-placed directive of smaller or
    equal priority: one step of the priority sort performed by
    sort_unstable_by_key in handle_directives (directives.rs line 226). -/
def insertByPriority (d : DirectiveItem) : List DirectiveItem → List DirectiveItem
  | [] => [d]
  | x :: xs =>
    if d.kind.priority < x.kind.priority then d :: x :: xs
    else x :: insertByPriority d xs

/-- The priority sort applied to the directive batch before dispatch. -/
def sortByPriority (ds : List DirectiveItem) : List DirectiveItem :=
  ds.foldl (fun acc d => insertByPriority d acc) []

/-- Concrete batch of five same-priority directives used to refute C2. -/
def c2Batch : List DirectiveItem :=
  [⟨.FromArchive, 1⟩, ⟨.FromArchive, 2⟩, ⟨.FromArchive, 3⟩,
   ⟨.FromArchive, 4⟩, ⟨.FromArchive, 5⟩]

/- ### The buffered dispatch window (try_buffered) as a trace model -/

/-- Observable scheduler events of the try_buffered(n) pipeline: a directive
    future starts, a directive future finishes, or the pipeline yields the
    next in-order completed result to try_for_each. -/
inductive Ev where
  | start (i : Nat)
  | finish (i : Nat)
  | yieldOut
deriving DecidableEq, Repr

/-- State of the buffered window: how many futures have been started, how
    many in-order results have been yielded, and which futures finished. -/
structure BufState where
  begun : Nat
  yielded : Nat
  finished : List Nat
deriving DecidableEq, Repr

/-- Initial buffered-window state. -/
def initBuf : BufState := ⟨0, 0, []⟩

/-- One scheduler event of try_buffered(n) over m directives: a new future
    starts only while fewer than n started futures are unyielded (the buffer
    capacity); futures finish in any order; results are yielded strictly in
    index order and only once finished. -/
def stepEv (n m : Nat) (s : BufState) : Ev → Option BufState
  | .start i =>
    if i = s.begun ∧ s.begun < m ∧ s.begun - s.yielded < n then
      some { s with begun := s.begun + 1 }
    else none
  | .finish i =>
    if i < s.begun ∧ i ∉ s.finished then
      some { s with finished := i :: s.finished }
    else none
  | .yieldOut =>
    if s.yielded < s.begun ∧ s.yielded ∈ s.finished then
      some { s with yielded := s.yielded + 1 }
    else none

/-- Run a whole event trace from a given state; none if any event is invalid
    in its state. -/
def runTrace (n m : Nat) (s : BufState) : List Ev → Option BufState
  | [] => some s
  | e :: rest =>
    match stepEv n m s e with
    | some s2 => runTrace n m s2 rest
    | none => none

/-- The two-directive batch used to refute the drain part of C8: one cheap
    FromArchive directive followed by a CreateBSA directive. -/
def c8Batch : List DirectiveItem := [⟨.FromArchive, 0⟩, ⟨.CreateBSA, 1⟩]

/-- A valid trace of try_buffered with window 2 in which the CreateBSA
    directive (index 1) starts before the FromArchive directive (index 0)
    finishes. -/
def c8Trace : List Ev :=
  [.start 0, .start 1, .finish 0, .yieldOut, .finish 1, .yieldOut]


/-- The dispatch order relation: ascending directive priority. -/
def prioLE (a b : DirectiveItem) : Prop := a.kind.priority ≤ b.kind.priority

/- ### The nested-archive extraction queue (spec section 4.3(b)) -/

/-- Modelled from the spec: state of the NestedArchivesService extraction
    queue (the module nested_archive_manager referenced from
    install_modlist/directives.rs is not present in the source tree, so the
    queue is modelled from spec section 4.3(b)). The state holds the set of
    keys whose extraction is in flight, the published results keyed by
    (archive, path), and, per key, how many underlying extraction calls have
    been performed. -/
structure QueueState (K V : Type) where
  inFlight : List K
  results : List (K × V)
  work : K → Nat

/-- The result published for a key, if any. -/
def lookupResult [DecidableEq K] (s : QueueState K V) (k : K) : Option V :=
  (s.results.find? (fun p => p.1 == k)).map Prod.snd

/-- Modelled from the spec: one transition of the extraction queue. An
    extraction for a key starts only when the key is neither in flight nor
    already published (a duplicate concurrent request instead awaits the
    in-flight marker); a finished extraction publishes its result and
    releases the marker. Requests served from the published results do not
    change the state. -/
inductive QueueStep [DecidableEq K] (extract : K → V) :
    QueueState K V → QueueState K V → Prop where
  | startExtraction (k : K) (s : QueueState K V)
      (hnotin : k ∉ s.inFlight) (hnores : lookupResult s k = none) :
      QueueStep extract s
        ⟨k :: s.inFlight, s.results,
          fun x => if x = k then s.work x + 1 else s.work x⟩
  | publish (k : K) (s : QueueState K V) (hin : k ∈ s.inFlight) :
      QueueStep extract s
        ⟨s.inFlight.erase k, (k, extract k) :: s.results, s.work⟩

/-- The empty initial queue: nothing in flight, nothing published, no
    extraction work performed. -/
def initQueue (K V : Type) : QueueState K V := ⟨[], [], fun _ => 0⟩

/-- The queue states reachable from the initial state under any
    interleaving of requests and completions. -/
def QueueReachable [DecidableEq K] (extract : K → V) (s : QueueState K V) :
    Prop :=
  Relation.ReflTransGen (QueueStep extract) (initQueue K V) s

/-- Inductive invariant of the queue: in-flight markers are unique, no key is
    simultaneously in flight and published, the work performed for a key is
    exactly one extraction once it is in flight or published and zero before,
    and every published result is the value the archive adapter extracts for
    that key. -/
def QueueInv [DecidableEq K] (extract : K → V) (s : QueueState K V) : Prop :=
  s.inFlight.Nodup ∧
  (∀ k, ¬(k ∈ s.inFlight ∧ (lookupResult s k).isSome)) ∧
  (∀ k, s.work k =
    if k ∈ s.inFlight ∨ (lookupResult s k).isSome then 1 else 0) ∧
  (∀ kv ∈ s.results, kv.2 = extract kv.1)

/-- A concrete queue state: the extraction for key 5 was started from the
    empty queue and then published. Used to witness the deduplication
    theorem. -/
def c1DemoFinal : QueueState Nat Nat :=
  ⟨([5] : List Nat).erase 5, [(5, 5)], fun x => if x = 5 then 1 else 0⟩

/- ### The archive capability layer: path normalization and the zip and 7z
   adapters (utils.rs, compression/zip.rs, compression/sevenz.rs) -/

/-- str::split on the two-character separator of two backslashes, on the
    character list of the string (leftmost, non-overlapping). -/
def splitBackslash2 : List Char → List (List Char)
  | [] => [[]]
  | '\\' :: '\\' :: rest => [] :: splitBackslash2 rest
  | c :: rest =>
    match splitBackslash2 rest with
    | [] => [[c]]
    | g :: gs => (c :: g) :: gs

/-- str::split on a single backslash, on the character list of the string. -/
def splitBackslash1 : List Char → List (List Char)
  | [] => [[]]
  | '\\' :: rest => [] :: splitBackslash1 rest
  | c :: rest =>
    match splitBackslash1 rest with
    | [] => [[c]]
    | g :: gs => (c :: g) :: gs

/-- Embedding of MaybeWindowsPath::into_path (utils.rs lines 76-88): when the
    string contains double backslashes they are split out and rejoined with
    forward slashes, then likewise for single backslashes. The contains
    checks are expressed as the split yielding more than one part. -/
def normPath (s : String) : String :=
  let cs := s.data
  let cs1 := if (splitBackslash2 cs).length > 1
    then List.intercalate ['/'] (splitBackslash2 cs) else cs
  let cs2 := if (splitBackslash1 cs1).length > 1
    then List.intercalate ['/'] (splitBackslash1 cs1) else cs1
  String.mk cs2

/-- ASCII fragment of str::to_lowercase, used for the case-insensitive
    path fallback comparisons. -/
def lowerStr (s : String) : String := String.mk (s.data.map Char.toLower)

/-- Insert-or-replace in an association list: the embedding of map insertion
    for the path and name lookups the adapters build (replacement mirrors
    collect() on a Rust map, where a later key wins). -/
def assocUpsert (m : List (String × A)) (k : String) (v : A) :
    List (String × A) :=
  match m with
  | [] => [(k, v)]
  | (k2, v2) :: rest =>
    if k2 == k then (k, v) :: rest else (k2, v2) :: assocUpsert rest k v

/-- Remove the entry of a key from an association list, returning its value
    and the remaining list: the embedding of map remove(key). -/
def assocRemove (m : List (String × A)) (k : String) :
    Option (A × List (String × A)) :=
  match m with
  | [] => none
  | (k2, v2) :: rest =>
    if k2 == k then some (v2, rest)
    else (assocRemove rest k).map (fun r => (r.1, (k2, v2) :: r.2))

/-- Errors of the archive adapters, carrying the data the Rust error
    contexts name (the unresolved path, or the expected and found byte
    counts of a truncated extraction). -/
inductive ArchiveErr where
  | notEnclosed (name : String)
  | pathNotFound (p : String)
  | nameNotFound (n : String)
  | sizeMismatch (expected found : Nat)
  | missingBlockIndex (n : String)
  | notAllExtracted
deriving DecidableEq, Repr

/-- One zip central-directory entry: its stored name, whether it is a file,
    whether its name is enclosed (no path traversal), its declared
    uncompressed size, and the number of bytes its decoder actually yields
    when copied out. -/
structure ZipEntry where
  name : String
  isFile : Bool
  enclosed : Bool
  declaredSize : Nat
  actualSize : Nat
deriving DecidableEq, Repr

/-- Embedding of ZipArchive::list_paths_with_originals (zip.rs lines 42-63):
    file entries are listed as (stored name, normalized path); a file entry
    that is not enclosed is an error. -/
def listZipPaths : List ZipEntry → Except ArchiveErr (List (String × String))
  | [] => .ok []
  | e :: rest =>
    if e.isFile then
      if e.enclosed then
        (listZipPaths rest).map (fun l => (e.name, normPath e.name) :: l)
      else .error (.notEnclosed e.name)
    else listZipPaths rest

/-- The zip path lookup: normalized path to stored name, later entries
    winning (zip.rs lines 72-78). -/
def zipPathLookup (l : List (String × String)) : List (String × String) :=
  l.foldl (fun m t => assocUpsert m t.2 t.1) []

/-- Embedding of the path-resolution loop of ZipArchive::get_many_handles
    (zip.rs lines 79-90): each requested path is removed from the lookup; a
    missing path is an error, with no case-insensitive fallback. -/
def zipResolve (m : List (String × String)) :
    List String → Except ArchiveErr (List (String × String))
  | [] => .ok []
  | p :: rest =>
    match assocRemove m p with
    | some (name, m2) =>
      (zipResolve m2 rest).map (fun l => (p, name) :: l)
    | none => .error (.pathNotFound p)

/-- Embedding of the per-entry extraction of ZipArchive::get_many_handles
    (zip.rs lines 100-133): the entry is reopened by stored name, copied to
    a temp file, and the handle is returned only when the copied byte count
    equals the declared size; otherwise the error names both counts. -/
def zipExtractOne (entries : List ZipEntry) (archivePath name : String) :
    Except ArchiveErr (String × Nat) :=
  match entries.find? (fun e => e.name == name) with
  | none => .error (.nameNotFound name)
  | some e =>
    if e.actualSize = e.declaredSize then .ok (archivePath, e.actualSize)
    else .error (.sizeMismatch e.declaredSize e.actualSize)

/-- Extraction of every resolved (path, name) pair in order. -/
def zipExtractAll (entries : List ZipEntry) :
    List (String × String) → Except ArchiveErr (List (String × Nat))
  | [] => .ok []
  | (p, name) :: rest =>
    (zipExtractOne entries p name).bind (fun h =>
      (zipExtractAll entries rest).map (fun l => h :: l))

/-- Embedding of ZipArchive::get_many_handles: list, build the path lookup,
    resolve every requested path (exact match only), then extract each
    resolved entry with the size check. -/
def zipGetManyHandles (entries : List ZipEntry) (requested : List String) :
    Except ArchiveErr (List (String × Nat)) :=
  (listZipPaths entries).bind (fun listed =>
    (zipResolve (zipPathLookup listed) requested).bind (fun resolved =>
      zipExtractAll entries resolved))

/-- One 7z entry: its stored name, whether it is a directory, the index of
    the solid compression block holding it (if any), its declared size and
    the byte count its block decoder actually yields. -/
structure SZEntry where
  name : String
  isDir : Bool
  blockIdx : Option Nat
  declaredSize : Nat
  actualSize : Nat
deriving DecidableEq, Repr

/-- Embedding of list_paths_with_originals for 7z (sevenz.rs lines 58-68):
    non-directory entries as (stored name, normalized path, block index). -/
def listSZPaths (entries : List SZEntry) :
    List (String × String × Option Nat) :=
  (entries.filter (fun e => !e.isDir)).map
    (fun e => (e.name, normPath e.name, e.blockIdx))

/-- The 7z path lookup: normalized path to (stored name, block index)
    (sevenz.rs lines 79-86). -/
def szPathLookup (entries : List SZEntry) :
    List (String × (String × Option Nat)) :=
  (listSZPaths entries).foldl (fun m t => assocUpsert m t.2.1 (t.1, t.2.2)) []

/-- Embedding of one step of the 7z path resolution (sevenz.rs lines
    87-108): exact removal from the lookup first; on a miss, the first
    remaining entry whose lowercased path equals the lowercased request is
    used (with a warning, and without removal); otherwise an error. -/
def szResolveOne (m : List (String × (String × Option Nat))) (p : String) :
    Except ArchiveErr
      ((String × Option Nat) × List (String × (String × Option Nat))) :=
  match assocRemove m p with
  | some (v, m2) => .ok (v, m2)
  | none =>
    match m.find? (fun kv => lowerStr kv.1 == lowerStr p) with
    | some kv => .ok (kv.2, m)
    | none => .error (.pathNotFound p)

/-- Resolution of all requested 7z paths in order; results pair the
    requested path with the resolved (stored name, block index). -/
def szResolve (m : List (String × (String × Option Nat))) :
    List String → Except ArchiveErr (List (String × (String × Option Nat)))
  | [] => .ok []
  | p :: rest =>
    (szResolveOne m p).bind (fun r =>
      (szResolve r.2 rest).map (fun l => (p, r.1) :: l))

/-- The 7z name lookup built from the resolved paths: stored entry name to
    (requested path, block index), later duplicates winning (sevenz.rs
    lines 113-116). -/
def szBuildNameLookup (resolved : List (String × (String × Option Nat))) :
    List (String × (String × Option Nat)) :=
  resolved.foldl (fun m kv => assocUpsert m kv.2.1 (kv.1, kv.2.2)) []

/-- Every resolved entry must carry a block index; an entry without one is
    an error naming the entry (sevenz.rs lines 121-127). -/
def szRequireIdx :
    List (String × (String × Option Nat)) →
      Except ArchiveErr (List (String × String × Nat))
  | [] => .ok []
  | (name, p, some i) :: rest =>
    (szRequireIdx rest).map (fun l => (name, p, i) :: l)
  | (name, _, none) :: _ => .error (.missingBlockIndex name)

/-- Insertion into a list sorted by block index. -/
def insertByIdx (t : String × String × Nat) :
    List (String × String × Nat) → List (String × String × Nat)
  | [] => [t]
  | x :: xs => if t.2.2 ≤ x.2.2 then t :: x :: xs else x :: insertByIdx t xs

/-- The sort by block index applied before grouping (sevenz.rs line 131). -/
def sortByIdx (l : List (String × String × Nat)) :
    List (String × String × Nat) :=
  l.foldl (fun acc t => insertByIdx t acc) []

/-- Grouping of adjacent entries with equal block index (chunk_by, sevenz.rs
    lines 132-143): each group carries its block index and the per-block
    lookup from stored entry name to requested path. -/
def chunkByIdx : List (String × String × Nat) →
    List (Nat × List (String × String))
  | [] => []
  | t :: rest =>
    match chunkByIdx rest with
    | [] => [(t.2.2, [(t.1, t.2.1)])]
    | (j, grp) :: out =>
      if t.2.2 = j then (j, (t.1, t.2.1) :: grp) :: out
      else (t.2.2, [(t.1, t.2.1)]) :: (j, grp) :: out

/-- The non-directory entries of one solid block, in archive order: what a
    BlockDecoder for that block index streams through. -/
def blockEntries (entries : List SZEntry) (i : Nat) : List SZEntry :=
  entries.filter (fun e => !e.isDir && e.blockIdx == some i)

/-- Embedding of the single streaming pass one BlockDecoder performs
    (sevenz.rs lines 145-202, for_each_entries): a requested entry (present
    in the per-block lookup) is copied to a temp file and returned only if
    the copied byte count equals its declared size; an entry not in the
    lookup is drained to an empty sink and recorded as such; the pass stops
    early once the lookup is emptied, and it is an error if entries remain
    unextracted when the block is exhausted. Returns (outputs, drained
    entry names). -/
def scanBlock (bes : List SZEntry) (lkp : List (String × String)) :
    Except ArchiveErr (List (String × Nat) × List String) :=
  match bes with
  | [] => if lkp.isEmpty then .ok ([], []) else .error .notAllExtracted
  | e :: rest =>
    match assocRemove lkp e.name with
    | some (origPath, lkp2) =>
      if e.actualSize = e.declaredSize then
        if lkp2.isEmpty then .ok ([(origPath, e.actualSize)], [])
        else
          (scanBlock rest lkp2).map
            (fun r => ((origPath, e.actualSize) :: r.1, r.2))
      else .error (.sizeMismatch e.declaredSize e.actualSize)
    | none =>
      if lkp.isEmpty then .ok ([], [e.name])
      else (scanBlock rest lkp).map (fun r => (r.1, e.name :: r.2))

/-- The block groups SevenZipArchive::get_many_handles decodes: resolution,
    the name lookup, the block-index requirement, the sort and the adjacent
    grouping. Each group is handed to exactly one BlockDecoder. -/
def szGroups (entries : List SZEntry) (requested : List String) :
    Except ArchiveErr (List (Nat × List (String × String))) :=
  (szResolve (szPathLookup entries) requested).bind (fun resolved =>
    (szRequireIdx (szBuildNameLookup resolved)).map (fun withIdx =>
      chunkByIdx (sortByIdx withIdx)))

/-- Decoding of every block group in order, concatenating the outputs. -/
def szRunGroups (entries : List SZEntry) :
    List (Nat × List (String × String)) →
      Except ArchiveErr (List (String × Nat))
  | [] => .ok []
  | (i, lkp) :: rest =>
    (scanBlock (blockEntries entries i) lkp).bind (fun r =>
      (szRunGroups entries rest).map (fun l => r.1 ++ l))

/-- Embedding of SevenZipArchive::get_many_handles (sevenz.rs lines
    78-215). -/
def szGetManyHandles (entries : List SZEntry) (requested : List String) :
    Except ArchiveErr (List (String × Nat)) :=
  (szGroups entries requested).bind (szRunGroups entries)

/-- The zip entry used to refute the universal case-insensitive fallback:
    an archive holding Foo/Bar.DDS. -/
def c6ZipEntry : ZipEntry := ⟨"Foo/Bar.DDS", true, true, 10, 10⟩

/-- The analogous 7z entry, which does resolve case-insensitively. -/
def c6SZEntry : SZEntry := ⟨"Foo/Bar.DDS", false, some 0, 10, 10⟩

/-- Concrete three-entry solid archive: entry B alone in block 0, entries A
    and C sharing block 1. Witnesses the solid-block batching theorem. -/
def c3DemoEntries : List SZEntry :=
  [⟨"A", false, some 1, 5, 5⟩, ⟨"B", false, some 0, 3, 3⟩,
   ⟨"C", false, some 1, 4, 4⟩]

/- ### FromArchive copy validation and the extension whitelist
   (install_modlist/directives/from_archive.rs, read_wrappers validators) -/

/-- The last slash-separated component of a path string: the file name the
    extension is computed from. -/
def fileNameChars (cs : List Char) : List Char :=
  cs.foldl (fun acc c => if c = '/' then [] else acc ++ [c]) []

/-- The suffix after the last dot of a character list, when a dot occurs. -/
def afterLastDot : List Char → Option (List Char)
  | [] => none
  | c :: rest =>
    if c = '.' then
      match afterLastDot rest with
      | some e => some e
      | none => some rest
    else afterLastDot rest

/-- Rust Path::extension on the file name: the part after the last dot,
    unless the file name has no dot or starts with its only dot. -/
def pathExtension (p : String) : Option String :=
  match fileNameChars p.data with
  | [] => none
  | c :: rest =>
    if c = '.' then (afterLastDot rest).map String.mk
    else (afterLastDot (c :: rest)).map String.mk

/-- Embedding of EXTENSION_HASH_WHITELIST (from_archive.rs lines 26-29):
    extensions whose manifest hashes cover rewritten headers. -/
def EXTENSION_HASH_WHITELIST : List String := ["dds"]

/-- Embedding of is_whitelisted_by_path (from_archive.rs lines 31-39): the
    lowercased extension is on the whitelist. -/
def is_whitelisted_by_path (p : String) : Bool :=
  match pathExtension p with
  | some ext => EXTENSION_HASH_WHITELIST.contains (lowerStr ext)
  | none => false

/-- Validation failures of the copy pipeline, naming both values. -/
inductive CopyErr where
  | sizeMismatch (expected found : Nat)
  | hashMismatch (expected found : Nat)
deriving DecidableEq, Repr

/-- Embedding of perform_copy in FromArchiveHandler::handle (from_archive.rs
    lines 68-88). The streaming validators it stacks come from
    read_wrappers.rs; that file is not in the source tree, so their exhaust
    behaviour is modelled from the spec: the size validator compares the
    byte count against the declared size on stream exhaustion, and the hash
    validator compares the running digest (the digest function is a
    parameter) against the declared hash. A whitelisted target path stacks
    only the size validator; any other path stacks both. -/
def performCopy (hashFn : List Nat → Nat) (targetPath : String)
    (size hash : Nat) (source : List Nat) : Except CopyErr Unit :=
  if is_whitelisted_by_path targetPath then
    if source.length = size then .ok ()
    else .error (.sizeMismatch size source.length)
  else
    if source.length = size then
      if hashFn source = hash then .ok ()
      else .error (.hashMismatch hash (hashFn source))
    else .error (.sizeMismatch size source.length)

/- ### Base64 encoding of u64 hashes
   (install_modlist/download_cache.rs lines 112-138) -/

/-- The standard base64 alphabet used by BASE64_STANDARD. -/
def base64Alphabet : List Char :=
  ("ABCDEFGHIJKLMNOPQRSTUVWXYZabcdefghijklmnopqrstuvwxyz0123456789+/").data

/-- The output character for a six-bit value. -/
def encodeChar (n : Nat) : Char := base64Alphabet.getD n (Char.ofNat 61)

/-- Position of a character in the alphabet, scanning from an offset. -/
def decodeCharAux (c : Char) : List Char → Nat → Option Nat
  | [], _ => none
  | x :: xs, i => if x = c then some i else decodeCharAux c xs (i + 1)

/-- The six-bit value of an input character, if it is in the alphabet. -/
def decodeChar (c : Char) : Option Nat := decodeCharAux c base64Alphabet 0

/-- Standard base64 encoding with padding of a byte list: three bytes per
    four output characters, the final one or two bytes padded with the
    equals sign, as BASE64_STANDARD.encode does. -/
def encodeGroups : List Nat → List Char
  | [] => []
  | [b0] =>
    [encodeChar (b0 / 4), encodeChar ((b0 % 4) * 16), '=', '=']
  | [b0, b1] =>
    [encodeChar (b0 / 4), encodeChar ((b0 % 4) * 16 + b1 / 16),
     encodeChar ((b1 % 16) * 4), '=']
  | b0 :: b1 :: b2 :: rest =>
    encodeChar (b0 / 4) :: encodeChar ((b0 % 4) * 16 + b1 / 16) ::
      encodeChar ((b1 % 16) * 4 + b2 / 64) :: encodeChar (b2 % 64) ::
      encodeGroups rest

/-- Standard base64 decoding with required canonical padding, as
    BASE64_STANDARD.decode does: four characters per three bytes, padding
    allowed only at the end and only with zeroed trailing bits, any other
    input (wrong length, character outside the alphabet, misplaced padding)
    rejected. -/
def decodeGroups : List Char → Option (List Nat)
  | [] => some []
  | c0 :: c1 :: c2 :: c3 :: rest =>
    if c2 = '=' then
      if c3 = '=' ∧ rest = [] then
        match decodeChar c0, decodeChar c1 with
        | some s0, some s1 =>
          if s1 % 16 = 0 then some [s0 * 4 + s1 / 16] else none
        | _, _ => none
      else none
    else if c3 = '=' then
      if rest = [] then
        match decodeChar c0, decodeChar c1, decodeChar c2 with
        | some s0, some s1, some s2 =>
          if s2 % 4 = 0 then
            some [s0 * 4 + s1 / 16, (s1 % 16) * 16 + s2 / 4]
          else none
        | _, _, _ => none
      else none
    else
      match decodeChar c0, decodeChar c1, decodeChar c2, decodeChar c3 with
      | some s0, some s1, some s2, some s3 =>
        (decodeGroups rest).map (fun bs =>
          (s0 * 4 + s1 / 16) :: ((s1 % 16) * 16 + s2 / 4) ::
            ((s2 % 4) * 64 + s3) :: bs)
      | _, _, _, _ => none
  | _ => none

/-- The eight bytes of a u64 in memory order (little-endian, the native
    order of the supported targets); the round trip below does not depend
    on the order, only on from_ne_bytes inverting to_ne_bytes. -/
def u64ToNeBytes (h : Nat) : List Nat :=
  [h % 256, h / 256 % 256, h / 65536 % 256, h / 16777216 % 256,
   h / 4294967296 % 256, h / 1099511627776 % 256,
   h / 281474976710656 % 256, h / 72057594037927936 % 256]

/-- u64::from_ne_bytes after the eight-byte conversion of the decoded
    vector; any other byte count is the invalid size error. -/
def u64FromNeBytes : List Nat → Option Nat
  | [b0, b1, b2, b3, b4, b5, b6, b7] =>
    some (b0 + b1 * 256 + b2 * 65536 + b3 * 16777216 +
      b4 * 4294967296 + b5 * 1099511627776 +
      b6 * 281474976710656 + b7 * 72057594037927936)
  | _ => none

/-- Embedding of to_base_64_from_u64 (download_cache.rs lines 123-125). -/
def to_base_64_from_u64 (h : Nat) : String :=
  String.mk (encodeGroups (u64ToNeBytes h))

/-- Embedding of to_u64_from_base_64 (download_cache.rs lines 127-138):
    decode the base64 string, require exactly eight bytes, rebuild the
    u64. -/
def to_u64_from_base_64 (s : String) : Option Nat :=
  (decodeGroups s.data).bind u64FromNeBytes

/- ### The buffered pipeline with per-directive outcomes (try_buffered +
   try_for_each, directives.rs lines 228-271) -/

/-- Scheduler events of the try_buffered(n) + try_for_each pipeline with
    outcomes: a directive future starts or finishes, the next in-order
    result is yielded when it is a success, or the next in-order result is
    an error - try_for_each then aborts the stream, and handle_directives
    wraps that single error as the returned one-element vector. -/
inductive Ev2 where
  | start (i : Nat)
  | finish (i : Nat)
  | yieldOk
  | yieldErr
deriving DecidableEq, Repr

/-- Execution of an event trace of the outcome-aware buffered pipeline over
    m directives whose i-th sorted directive succeeds iff ok i: a future
    starts only while fewer than n started futures are unyielded; futures
    finish in any order; results are yielded strictly in index order and
    only once finished; yielding a failed result aborts the pipeline, so it
    is only valid as the final event. -/
def runTraceB (ok : Nat → Bool) (n m : Nat) (s : BufState) :
    List Ev2 → Option BufState
  | [] => some s
  | e :: rest =>
    match e with
    | .start i =>
      if i = s.begun ∧ s.begun < m ∧ s.begun - s.yielded < n then
        runTraceB ok n m { s with begun := s.begun + 1 } rest
      else none
    | .finish i =>
      if i < s.begun ∧ i ∉ s.finished then
        runTraceB ok n m { s with finished := i :: s.finished } rest
      else none
    | .yieldOk =>
      if s.yielded < s.begun ∧ s.yielded ∈ s.finished ∧
          ok s.yielded = true then
        runTraceB ok n m { s with yielded := s.yielded + 1 } rest
      else none
    | .yieldErr =>
      if s.yielded < s.begun ∧ s.yielded ∈ s.finished ∧
          ok s.yielded = false ∧ rest = [] then
        some s
      else none

/-- Concrete handler that fails on directives 3 and 5: two failures in the
    five-directive batch. -/
def c2HandleTwo (d : DirectiveItem) : Except String Unit :=
  if d.id = 3 ∨ d.id = 5 then .error "unresolvable archive hash" else .ok ()

/-- Per-sorted-index success of the concrete batch under c2HandleTwo. -/
def c2Ok (i : Nat) : Bool :=
  (c2HandleTwo ((sortByPriority c2Batch).getD i default)).isOk

/-- A complete valid execution at window 2 of the five-directive batch: the
    pipeline aborts while yielding the failure of directive index 2, with
    directives 3 and 4 never started. -/
def c2TraceB : List Ev2 :=
  [.start 0, .start 1, .finish 0, .yieldOk, .finish 1, .yieldOk,
   .start 2, .finish 2, .yieldErr]

/- ### The external-tool 7z wrapper (crates/wrapped-7zip/src/lib.rs) -/

/-- Embedding of the entry scan of wrapped-7zip get_many_handles (lib.rs
    lines 179-189): each archive entry whose lowercased path removes a key
    of the lowercased request lookup is kept, in archive order; the final
    lookup and the kept entries are returned. -/
def w7Scan (lkp : List (String × String)) : List String →
    List (String × String) × List String
  | [] => (lkp, [])
  | e :: rest =>
    match assocRemove lkp (lowerStr e) with
    | some (_, lkp2) =>
      (fun r => (r.1, e :: r.2)) (w7Scan lkp2 rest)
    | none => w7Scan lkp rest

/-- Embedding of the resolution part of wrapped-7zip get_many_handles
    (lib.rs lines 169-195): the requested paths are keyed by their
    lowercased form, the archive entries are scanned against that lookup,
    and it is an error when some requested path found no entry. The actual
    byte extraction is delegated to the external 7z binary. -/
def w7Resolve (entries : List String) (requested : List String) :
    Except ArchiveErr (List String) :=
  let lookup := requested.foldl (fun m p => assocUpsert m (lowerStr p) p) []
  let r := w7Scan lookup entries
  if r.1.isEmpty then .ok r.2
  else .error (.pathNotFound "some paths were not found")

/- ### Theorems -/

/-- C4 counterexample: serializing the ArchiveHashPath with source hash "h"
    and single path segment "a" and deserializing the result does not give
    back the original value: the segment comes back JSON-quoted. -/
theorem c4_serde_roundtrip_fails :
    deserializeArchiveHashPath
        (serializeArchiveHashPath ⟨"h", [⟨"a"⟩]⟩) ≠ some ⟨"h", [⟨"a"⟩]⟩ := by
  decide

/-- C4 amended: serialization emits the source hash first and then the
    serde_json-quoted path segments, so deserializing the serialized form
    yields an ArchiveHashPath whose segments are the JSON string encodings of
    the originals (the identity holds only for an empty path). -/
theorem c4_amended_roundtrip (a : ArchiveHashPath) :
    deserializeArchiveHashPath (serializeArchiveHashPath a) =
      some ⟨a.source_hash, a.path.map (fun p => ⟨jsonEncodeString p.s⟩)⟩ := by
  cases a with
  | mk h p =>
    simp [serializeArchiveHashPath, deserializeArchiveHashPath, List.map_map]

/-- C5 counterexample: the deserializer accepts a singleton array and produces
    an ArchiveHashPath whose path component is empty, so the invariant that
    every parsed value has a non-empty path fails. -/
theorem c5_empty_path_parses :
    deserializeArchiveHashPath ["somehash"] = some ⟨"somehash", []⟩ := rfl

/-- C5 amended: successful deserialization only requires the array itself to
    be non-empty; the parsed path has exactly one element fewer than the
    array, and is empty exactly when the array is a singleton. -/
theorem c5_amended_path_length (l : List String) (a : ArchiveHashPath)
    (h : deserializeArchiveHashPath l = some a) :
    l.length = a.path.length + 1 ∧ (a.path = [] ↔ l.length = 1) := by
  cases l with
  | nil => simp [deserializeArchiveHashPath] at h
  | cons x xs =>
    simp [deserializeArchiveHashPath] at h
    subst h
    simp

/-- Witness for c5_amended_path_length at a concrete parse. -/
theorem c5_amended_path_length_witness :
    (["h", "p"] : List String).length =
        (ArchiveHashPath.mk "h" [⟨"p"⟩]).path.length + 1 ∧
      ((ArchiveHashPath.mk "h" [⟨"p"⟩]).path = [] ↔
        (["h", "p"] : List String).length = 1) :=
  c5_amended_path_length ["h", "p"] ⟨"h", [⟨"p"⟩]⟩ rfl

/-- Running a concatenated trace is running its two halves in sequence. -/
theorem runTrace_append (n m : Nat) (s : BufState) (tr1 tr2 : List Ev) :
    runTrace n m s (tr1 ++ tr2) =
      (runTrace n m s tr1).bind (fun s1 => runTrace n m s1 tr2) := by
  induction tr1 generalizing s with
  | nil => rfl
  | cons e rest ih =>
    simp only [List.cons_append, runTrace]
    cases stepEv n m s e with
    | none => rfl
    | some s2 => simpa using ih s2

/-- One valid scheduler event preserves the window invariants, and can only
    add a future to the finished set via its own finish event. -/
theorem stepEv_inv (n m : Nat) (s s' : BufState) (e : Ev)
    (hstep : stepEv n m s e = some s')
    (h1 : s.yielded ≤ s.begun)
    (h2 : ∀ k, k < s.yielded → k ∈ s.finished) :
    s'.yielded ≤ s'.begun ∧ (∀ k, k < s'.yielded → k ∈ s'.finished) ∧
      (∀ k, k ∈ s'.finished → k ∈ s.finished ∨ e = Ev.finish k) := by
  cases e with
  | start i =>
    simp only [stepEv] at hstep
    split at hstep
    · cases hstep
      refine ⟨by dsimp; omega, fun k hk => h2 k hk, fun k hk => Or.inl hk⟩
    · cases hstep
  | finish i =>
    simp only [stepEv] at hstep
    split at hstep
    · cases hstep
      refine ⟨h1, fun k hk => List.mem_cons_of_mem _ (h2 k hk), fun k hk => ?_⟩
      rcases List.mem_cons.mp hk with h | h
      · subst h; exact Or.inr rfl
      · exact Or.inl h
    · cases hstep
  | yieldOut =>
    simp only [stepEv] at hstep
    split at hstep
    next hcond =>
      cases hstep
      refine ⟨by dsimp; omega, fun k hk => ?_, fun k hk => Or.inl hk⟩
      dsimp at hk ⊢
      rcases Nat.lt_or_ge k s.yielded with h | h
      · exact h2 k h
      · have : k = s.yielded := by omega
        subst this; exact hcond.2
    next => cases hstep

/-- Invariants carried by any valid run of the buffered window, together with
    the fact that everything recorded as finished either was already finished
    or has its finish event inside the trace. -/
theorem runTrace_invariants (n m : Nat) (tr : List Ev) (s0 s : BufState)
    (hrun : runTrace n m s0 tr = some s)
    (h0l : s0.yielded ≤ s0.begun)
    (h0y : ∀ k, k < s0.yielded → k ∈ s0.finished) :
    s.yielded ≤ s.begun ∧ (∀ k, k < s.yielded → k ∈ s.finished) ∧
      (∀ k, k ∈ s.finished → k ∈ s0.finished ∨ Ev.finish k ∈ tr) := by
  induction tr generalizing s0 with
  | nil =>
    simp only [runTrace, Option.some.injEq] at hrun
    subst hrun
    exact ⟨h0l, h0y, fun k hk => Or.inl hk⟩
  | cons e rest ih =>
    simp only [runTrace] at hrun
    cases hstep : stepEv n m s0 e with
    | none => rw [hstep] at hrun; cases hrun
    | some s1 =>
      rw [hstep] at hrun
      obtain ⟨k1, k2, k3⟩ := stepEv_inv n m s0 s1 e hstep h0l h0y
      obtain ⟨r1, r2, r3⟩ := ih s1 hrun k1 k2
      refine ⟨r1, r2, fun k hk => ?_⟩
      rcases r3 k hk with h | h
      · rcases k3 k h with h2 | h2
        · exact Or.inl h2
        · exact Or.inr (h2 ▸ List.mem_cons_self e rest)
      · exact Or.inr (List.mem_cons_of_mem _ h)

/-- Membership after a priority insertion. -/
theorem mem_insertByPriority (y d : DirectiveItem) (l : List DirectiveItem) :
    y ∈ insertByPriority d l ↔ y = d ∨ y ∈ l := by
  induction l with
  | nil => simp [insertByPriority]
  | cons x xs ih =>
    simp only [insertByPriority]
    split
    · simp
    · simp only [List.mem_cons, ih]
      tauto

/-- Priority insertion preserves sortedness by priority. -/
theorem pairwise_insertByPriority (d : DirectiveItem) (l : List DirectiveItem)
    (h : l.Pairwise prioLE) : (insertByPriority d l).Pairwise prioLE := by
  induction l with
  | nil => simp [insertByPriority, List.pairwise_cons]
  | cons x xs ih =>
    rw [List.pairwise_cons] at h
    simp only [insertByPriority]
    split
    next hlt =>
      rw [List.pairwise_cons]
      refine ⟨fun y hy => ?_, List.pairwise_cons.mpr h⟩
      rcases List.mem_cons.mp hy with rfl | hy
      · exact Nat.le_of_lt hlt
      · exact Nat.le_trans (Nat.le_of_lt hlt) (h.1 y hy)
    next hge =>
      rw [List.pairwise_cons]
      refine ⟨fun y hy => ?_, ih h.2⟩
      rcases (mem_insertByPriority y d xs).mp hy with rfl | hy
      · exact Nat.le_of_not_lt hge
      · exact h.1 y hy

/-- The dispatch list produced by the priority sort is sorted by ascending
    directive priority. -/
theorem sortByPriority_sorted (ds : List DirectiveItem) :
    (sortByPriority ds).Pairwise prioLE := by
  suffices h : ∀ (l : List DirectiveItem) (acc : List DirectiveItem),
      acc.Pairwise prioLE →
      (l.foldl (fun a d => insertByPriority d a) acc).Pairwise prioLE by
    exact h ds [] List.Pairwise.nil
  intro l
  induction l with
  | nil => intro acc hacc; exact hacc
  | cons d rest ih =>
    intro acc hacc
    exact ih _ (pairwise_insertByPriority d acc hacc)

/-- C8 counterexample: with a buffer window of 2 (the release build uses a
    window derived from the CPU count), the trace in which the CreateBSA
    directive (index 1 of the sorted batch) starts before the lower-priority
    FromArchive directive (index 0) finishes is a valid execution of the
    try_buffered pipeline, so CreateBSA directives are not fenced behind the
    completion of lower-priority tiers. -/
theorem c8_bsa_starts_before_lower_tier_completes :
    (runTrace 2 2 initBuf c8Trace).isSome = true ∧
    sortByPriority c8Batch = c8Batch ∧
    (c8Batch.getD 1 default).kind = .CreateBSA ∧
    (c8Batch.getD 0 default).kind.priority <
      (c8Batch.getD 1 default).kind.priority ∧
    c8Trace = [Ev.start 0] ++ Ev.start 1 ::
      [Ev.finish 0, Ev.yieldOut, Ev.finish 1, Ev.yieldOut] ∧
    Ev.finish 0 ∉ [Ev.start 0] := by
  refine ⟨rfl, rfl, rfl, by decide, rfl, by decide⟩

/-- C8 amended: directives are dispatched in ascending order of the fixed
    priority key, and in every valid execution of the try_buffered(n)
    pipeline a directive at sorted position i can only start once every
    directive at distance at least n before it has finished. The tier-drain
    guarantee for CreateBSA therefore holds only up to the n-1 most recent
    lower-priority directives (completely, only when n = 1, the debug build
    concurrency). -/
theorem c8_amended_sorted_window (ds : List DirectiveItem)
    (n m i j : Nat) (tr pre post : List Ev)
    (hval : (runTrace n m initBuf tr).isSome = true)
    (hsplit : tr = pre ++ Ev.start i :: post)
    (hj : j + n ≤ i) :
    (sortByPriority ds).Pairwise prioLE ∧ Ev.finish j ∈ pre := by
  refine ⟨sortByPriority_sorted ds, ?_⟩
  subst hsplit
  rw [Option.isSome_iff_exists] at hval
  obtain ⟨send, hrun⟩ := hval
  rw [runTrace_append] at hrun
  cases hpre : runTrace n m initBuf pre with
  | none => rw [hpre] at hrun; cases hrun
  | some s1 =>
    rw [hpre] at hrun
    simp only [Option.some_bind, runTrace] at hrun
    cases hstep : stepEv n m s1 (Ev.start i) with
    | none => rw [hstep] at hrun; cases hrun
    | some s2 =>
      obtain ⟨inv1, inv2, inv3⟩ :=
        runTrace_invariants n m pre initBuf s1 hpre (Nat.le_refl 0)
          (fun k hk => absurd hk (Nat.not_lt_zero k))
      simp only [stepEv] at hstep
      split at hstep
      next hcond =>
        obtain ⟨hib, hbm, hwin⟩ := hcond
        have hjy : j < s1.yielded := by omega
        have hjf : j ∈ s1.finished := inv2 j hjy
        rcases inv3 j hjf with h | h
        · simp [initBuf] at h
        · exact h
      next => cases hstep

/-- Witness for c8_amended_sorted_window: with window 1 the second directive
    can only start after the first has finished (and its finish event indeed
    precedes the start in the concrete valid trace). -/
theorem c8_amended_sorted_window_witness :
    (sortByPriority c8Batch).Pairwise prioLE ∧
      Ev.finish 0 ∈ [Ev.start 0, Ev.finish 0, Ev.yieldOut] :=
  c8_amended_sorted_window c8Batch 1 2 1 0
    ([Ev.start 0, Ev.finish 0, Ev.yieldOut] ++ Ev.start 1 ::
      [Ev.finish 1, Ev.yieldOut])
    [Ev.start 0, Ev.finish 0, Ev.yieldOut] [Ev.finish 1, Ev.yieldOut]
    (by decide) rfl (by decide)

/-- Each queue transition preserves the queue invariant. -/
theorem queueStep_inv [DecidableEq K] (extract : K → V)
    (s s' : QueueState K V) (hstep : QueueStep extract s s')
    (hinv : QueueInv extract s) : QueueInv extract s' := by
  obtain ⟨hnd, hboth, hwork, hres⟩ := hinv
  cases hstep with
  | startExtraction k sq hnotin hnores =>
    have hlq : ∀ x, lookupResult (⟨k :: s.inFlight, s.results,
        fun x => if x = k then s.work x + 1 else s.work x⟩ : QueueState K V) x =
          lookupResult s x := fun _ => rfl
    refine ⟨List.nodup_cons.mpr ⟨hnotin, hnd⟩, fun x hx => ?_, fun x => ?_,
      hres⟩
    · obtain ⟨hx1, hx2⟩ := hx
      rw [hlq x] at hx2
      dsimp only at hx1
      rcases List.mem_cons.mp hx1 with rfl | hx1
      · rw [hnores] at hx2; cases hx2
      · exact hboth x ⟨hx1, hx2⟩
    · dsimp only
      rw [hlq x]
      by_cases hxk : x = k
      · subst hxk
        have h0 : s.work x = 0 := by
          rw [hwork x, if_neg]
          rintro (h | h)
          · exact hnotin h
          · rw [hnores] at h; cases h
        simp [h0]
      · rw [if_neg hxk, hwork x]
        exact if_congr (by simp [List.mem_cons, hxk]) rfl rfl
  | publish k sq hin =>
    have hlq : ∀ x, lookupResult (⟨s.inFlight.erase k,
        (k, extract k) :: s.results, s.work⟩ : QueueState K V) x =
          if k = x then some (extract k) else lookupResult s x := by
      intro x
      simp only [lookupResult]
      by_cases h : k = x
      · simp [List.find?, h]
      · have hb : (k == x) = false := by simp [h]
        simp [List.find?, hb, h]
    refine ⟨hnd.erase k, fun x hx => ?_, fun x => ?_, fun kv hkv => ?_⟩
    · obtain ⟨hx1, hx2⟩ := hx
      dsimp only at hx1
      obtain ⟨hxk, hx1f⟩ := (List.Nodup.mem_erase_iff hnd).mp hx1
      rw [hlq x, if_neg (fun h => hxk h.symm)] at hx2
      exact hboth x ⟨hx1f, hx2⟩
    · dsimp only
      rw [hlq x, hwork x]
      by_cases hxk : x = k
      · subst hxk
        rw [if_pos (Or.inl hin), if_pos (Or.inr (by simp))]
      · rw [if_neg (show ¬(k = x) from fun h => hxk h.symm)]
        refine if_congr ?_ rfl rfl
        rw [List.Nodup.mem_erase_iff hnd]
        constructor
        · rintro (h | h)
          · exact Or.inl ⟨hxk, h⟩
          · exact Or.inr h
        · rintro (⟨_, h⟩ | h)
          · exact Or.inl h
          · exact Or.inr h
    · dsimp only at hkv
      rcases List.mem_cons.mp hkv with rfl | hkv
      · rfl
      · exact hres kv hkv

/-- The invariant holds of every reachable queue state. -/
theorem queueReachable_inv [DecidableEq K] (extract : K → V)
    (s : QueueState K V) (h : QueueReachable extract s) :
    QueueInv extract s := by
  induction h with
  | refl =>
    refine ⟨List.nodup_nil, fun k hk => ?_, fun k => ?_, fun kv hkv => ?_⟩
    · exact absurd hk.1 (List.not_mem_nil k)
    · simp [initQueue, lookupResult]
    · cases hkv
  | tail hsteps hstep ih => exact queueStep_inv extract _ _ hstep ih

/-- C1 (the extraction queue itself is modelled from the spec, see
    QueueStep): in every reachable state of the nested-archive extraction
    queue, at most one underlying extraction call has been performed per
    (archive, path) key, no matter how many directives requested the key
    concurrently, and every published result a requester can receive is
    exactly the data the archive adapter extracts for that key. -/
theorem c1_extraction_dedup [DecidableEq K] (extract : K → V)
    (s : QueueState K V) (h : QueueReachable extract s) :
    (∀ k, s.work k ≤ 1) ∧ (∀ k v, (k, v) ∈ s.results → v = extract k) := by
  obtain ⟨_, _, hwork, hres⟩ := queueReachable_inv extract s h
  refine ⟨fun k => ?_, fun k v hkv => hres (k, v) hkv⟩
  rw [hwork k]
  split <;> omega

/-- Witness for c1_extraction_dedup: the state reached by starting and then
    publishing the extraction of key 5 satisfies the per-key work bound and
    result correctness. -/
theorem c1_extraction_dedup_witness :
    (∀ k, c1DemoFinal.work k ≤ 1) ∧
    (∀ k v, (k, v) ∈ c1DemoFinal.results → v = id k) :=
  c1_extraction_dedup id c1DemoFinal
    (Relation.ReflTransGen.tail
      (Relation.ReflTransGen.single
        (QueueStep.startExtraction 5 (initQueue Nat Nat) (by decide) rfl))
      (QueueStep.publish 5 _ (by decide)))

/-- Removing a key permutes the association list into the removed pair and
    the remainder. -/
theorem assocRemove_perm (m m2 : List (String × A)) (k : String) (v : A)
    (h : assocRemove m k = some (v, m2)) : m.Perm ((k, v) :: m2) := by
  induction m generalizing m2 with
  | nil => cases h
  | cons kv rest ih =>
    obtain ⟨k2, v2⟩ := kv
    simp only [assocRemove] at h
    split at h
    next heq =>
      have h3 := Option.some.inj h
      have hv : v2 = v := congrArg Prod.fst h3
      have hm : rest = m2 := congrArg Prod.snd h3
      have hk : k2 = k := eq_of_beq heq
      subst hv; subst hm; subst hk
      exact List.Perm.refl _
    next heq =>
      cases hrem : assocRemove rest k with
      | none => rw [hrem] at h; cases h
      | some r =>
        obtain ⟨rv, rm⟩ := r
        rw [hrem] at h
        have h3 := Option.some.inj h
        have hv : rv = v := congrArg Prod.fst h3
        have hm : (k2, v2) :: rm = m2 := congrArg Prod.snd h3
        subst hv
        subst hm
        exact List.Perm.trans ((ih rm hrem).cons (k2, v2))
          (List.Perm.swap (k, rv) (k2, v2) rm)

/-- A successful block scan extracts exactly the requested paths of the
    per-block lookup (as a permutation), and every output was produced by a
    block entry whose copied byte count equals its declared size. -/
theorem scanBlock_ok (bes : List SZEntry) (lkp : List (String × String))
    (outs : List (String × Nat)) (dr : List String)
    (h : scanBlock bes lkp = .ok (outs, dr)) :
    (outs.map Prod.fst).Perm (lkp.map Prod.snd) ∧
      ∀ o ∈ outs, ∃ e ∈ bes, o.2 = e.actualSize ∧
        e.actualSize = e.declaredSize := by
  induction bes generalizing lkp outs dr with
  | nil =>
    simp only [scanBlock] at h
    split at h
    next hemp =>
      have h3 := Except.ok.inj h
      have ho : ([] : List (String × Nat)) = outs := congrArg Prod.fst h3
      subst ho
      rw [List.isEmpty_iff.mp hemp]
      exact ⟨List.Perm.refl _, fun o ho => absurd ho (List.not_mem_nil o)⟩
    next => cases h
  | cons e rest ih =>
    simp only [scanBlock] at h
    cases hrem : assocRemove lkp e.name with
    | some r =>
      obtain ⟨origPath, lkp2⟩ := r
      rw [hrem] at h
      simp only at h
      split at h
      next hsz =>
        split at h
        next hemp =>
          have h3 := Except.ok.inj h
          have ho : [(origPath, e.actualSize)] = outs := congrArg Prod.fst h3
          subst ho
          have hperm := assocRemove_perm lkp lkp2 e.name origPath hrem
          rw [List.isEmpty_iff.mp hemp] at hperm
          refine ⟨?_, fun o ho => ?_⟩
          · have := hperm.map Prod.snd
            simpa using this.symm
          · rcases List.mem_singleton.mp ho with rfl
            exact ⟨e, List.mem_cons_self e rest, rfl, hsz⟩
        next hemp =>
          cases hs : scanBlock rest lkp2 with
          | error err => rw [hs] at h; cases h
          | ok r2 =>
            rw [hs] at h
            have h3 := Except.ok.inj h
            have ho : (origPath, e.actualSize) :: r2.1 = outs :=
              congrArg Prod.fst h3
            subst ho
            obtain ⟨ih1, ih2⟩ := ih lkp2 r2.1 r2.2 (by rw [hs])
            have hperm := assocRemove_perm lkp lkp2 e.name origPath hrem
            refine ⟨?_, fun o ho => ?_⟩
            · have h4 := hperm.map Prod.snd
              have h5 : List.map Prod.fst ((origPath, e.actualSize) :: r2.1) =
                  origPath :: List.map Prod.fst r2.1 := rfl
              rw [h5]
              exact (ih1.cons origPath).trans (by simpa using h4.symm)
            · rcases List.mem_cons.mp ho with rfl | ho
              · exact ⟨e, List.mem_cons_self e rest, rfl, hsz⟩
              · obtain ⟨e2, he2, hsz2⟩ := ih2 o ho
                exact ⟨e2, List.mem_cons_of_mem e he2, hsz2⟩
      next => cases h
    | none =>
      rw [hrem] at h
      simp only at h
      split at h
      next hemp =>
        have h3 := Except.ok.inj h
        have ho : ([] : List (String × Nat)) = outs := congrArg Prod.fst h3
        subst ho
        rw [List.isEmpty_iff.mp hemp]
        exact ⟨List.Perm.refl _, fun o ho => absurd ho (List.not_mem_nil o)⟩
      next hemp =>
        cases hs : scanBlock rest lkp with
        | error err => rw [hs] at h; cases h
        | ok r2 =>
          rw [hs] at h
          have h3 := Except.ok.inj h
          have ho : r2.1 = outs := congrArg Prod.fst h3
          subst ho
          obtain ⟨ih1, ih2⟩ := ih lkp r2.1 r2.2 (by rw [hs])
          refine ⟨ih1, fun o ho => ?_⟩
          obtain ⟨e2, he2, hsz2⟩ := ih2 o ho
          exact ⟨e2, List.mem_cons_of_mem e he2, hsz2⟩

/-- Membership after a block-index insertion. -/
theorem mem_insertByIdx (x t : String × String × Nat)
    (l : List (String × String × Nat)) :
    x ∈ insertByIdx t l ↔ x = t ∨ x ∈ l := by
  induction l with
  | nil => simp [insertByIdx]
  | cons y ys ih =>
    simp only [insertByIdx]
    split
    · simp
    · simp only [List.mem_cons, ih]
      tauto

/-- Block-index insertion preserves sortedness by index. -/
theorem pairwise_insertByIdx (t : String × String × Nat)
    (l : List (String × String × Nat))
    (h : l.Pairwise (fun a b => a.2.2 ≤ b.2.2)) :
    (insertByIdx t l).Pairwise (fun a b => a.2.2 ≤ b.2.2) := by
  induction l with
  | nil => simp [insertByIdx, List.pairwise_cons]
  | cons y ys ih =>
    rw [List.pairwise_cons] at h
    simp only [insertByIdx]
    split
    next hle =>
      rw [List.pairwise_cons]
      refine ⟨fun z hz => ?_, List.pairwise_cons.mpr h⟩
      rcases List.mem_cons.mp hz with rfl | hz
      · exact hle
      · exact Nat.le_trans hle (h.1 z hz)
    next hgt =>
      rw [List.pairwise_cons]
      refine ⟨fun z hz => ?_, ih h.2⟩
      rcases (mem_insertByIdx z t ys).mp hz with rfl | hz
      · exact Nat.le_of_not_le hgt
      · exact h.1 z hz

/-- The block-index sort produces an index-sorted list. -/
theorem sortByIdx_sorted (l : List (String × String × Nat)) :
    (sortByIdx l).Pairwise (fun a b => a.2.2 ≤ b.2.2) := by
  suffices h : ∀ (xs acc : List (String × String × Nat)),
      acc.Pairwise (fun a b => a.2.2 ≤ b.2.2) →
      (xs.foldl (fun a t => insertByIdx t a) acc).Pairwise
        (fun a b => a.2.2 ≤ b.2.2) by
    exact h l [] List.Pairwise.nil
  intro xs
  induction xs with
  | nil => intro acc hacc; exact hacc
  | cons t rest ih => intro acc hacc; exact ih _ (pairwise_insertByIdx t acc hacc)

/-- The block-index sort preserves the set of entries. -/
theorem mem_sortByIdx (x : String × String × Nat)
    (l : List (String × String × Nat)) :
    x ∈ sortByIdx l ↔ x ∈ l := by
  suffices h : ∀ (xs acc : List (String × String × Nat)),
      (x ∈ xs.foldl (fun a t => insertByIdx t a) acc ↔ x ∈ acc ∨ x ∈ xs) by
    simpa using h l []
  intro xs
  induction xs with
  | nil => intro acc; simp
  | cons t rest ih =>
    intro acc
    rw [List.foldl_cons, ih (insertByIdx t acc), mem_insertByIdx]
    simp only [List.mem_cons]
    tauto

/-- The block indices of the groups are exactly the indices occurring in the
    grouped list. -/
theorem mem_chunk_keys (i : Nat) (l : List (String × String × Nat)) :
    i ∈ (chunkByIdx l).map Prod.fst ↔ i ∈ l.map (fun t => t.2.2) := by
  induction l with
  | nil => simp [chunkByIdx]
  | cons t rest ih =>
    simp only [chunkByIdx]
    cases hc : chunkByIdx rest with
    | nil =>
      rw [hc] at ih
      simp only [List.map_nil, List.not_mem_nil, false_iff] at ih
      simp [ih]
    | cons g out =>
      obtain ⟨j, grp⟩ := g
      rw [hc] at ih
      simp only [List.map_cons, List.mem_cons] at ih
      dsimp only
      by_cases hj : t.2.2 = j
      · rw [if_pos hj]
        subst hj
        simp only [List.map_cons, List.mem_cons]
        constructor
        · intro h
          exact Or.inr (ih.mp h)
        · rintro (h | h)
          · exact Or.inl h
          · exact ih.mpr h
      · rw [if_neg hj]
        simp only [List.map_cons, List.mem_cons]
        constructor
        · rintro (h | h)
          · exact Or.inl h
          · exact Or.inr (ih.mp h)
        · rintro (h | h)
          · exact Or.inl h
          · exact Or.inr (ih.mpr h)

/-- Grouping an index-sorted list produces strictly increasing group keys:
    each distinct requested block index yields exactly one group, hence
    exactly one BlockDecoder. -/
theorem chunk_keys_lt (l : List (String × String × Nat))
    (h : l.Pairwise (fun a b => a.2.2 ≤ b.2.2)) :
    ((chunkByIdx l).map Prod.fst).Pairwise (· < ·) := by
  induction l with
  | nil => simp [chunkByIdx]
  | cons t rest ih =>
    rw [List.pairwise_cons] at h
    obtain ⟨h1, h2⟩ := h
    simp only [chunkByIdx]
    cases hc : chunkByIdx rest with
    | nil => simp
    | cons g out =>
      obtain ⟨j, grp⟩ := g
      have ihr := ih h2
      rw [hc] at ihr
      dsimp only
      by_cases hj : t.2.2 = j
      · rw [if_pos hj]
        simpa using ihr
      · rw [if_neg hj]
        simp only [List.map_cons]
        rw [List.pairwise_cons]
        refine ⟨fun k hk => ?_, by simpa using ihr⟩
        have hjmem : j ∈ rest.map (fun t => t.2.2) :=
          (mem_chunk_keys j rest).mp (by rw [hc]; simp)
        obtain ⟨x, hx, hxj⟩ := List.mem_map.mp hjmem
        have htj : t.2.2 ≤ j := hxj ▸ h1 x hx
        rcases List.mem_cons.mp hk with rfl | hk2
        · exact Nat.lt_of_le_of_ne htj hj
        · have hjk : j < k :=
            (List.pairwise_cons.mp (by simpa using ihr)).1 k hk2
          omega

/-- C3: get_many_handles groups the requested 7z entries by containing
    block; the group keys are strictly increasing, so exactly one
    BlockDecoder is constructed per distinct requested block index, and the
    keys cover exactly the requested indices. Each block is decoded in one
    streaming pass in which the extracted outputs are exactly the entries
    requested from that block (never an unrequested entry, whose bytes go to
    the empty sink or are skipped after the early stop) and every returned
    handle carries as many bytes as the entry declares. -/
theorem c3_solid_block_batching (entries : List SZEntry)
    (requested : List String)
    (resolved : List (String × (String × Option Nat)))
    (withIdx : List (String × String × Nat))
    (groups : List (Nat × List (String × String)))
    (hres : szResolve (szPathLookup entries) requested = .ok resolved)
    (hidx : szRequireIdx (szBuildNameLookup resolved) = .ok withIdx)
    (hgroups : groups = chunkByIdx (sortByIdx withIdx)) :
    szGroups entries requested = .ok groups ∧
    ((groups.map Prod.fst).Pairwise (· < ·)) ∧
    (∀ i, i ∈ groups.map Prod.fst ↔ i ∈ withIdx.map (fun t => t.2.2)) ∧
    (∀ g ∈ groups, ∀ outs dr,
      scanBlock (blockEntries entries g.1) g.2 = .ok (outs, dr) →
      (outs.map Prod.fst).Perm (g.2.map Prod.snd) ∧
      ∀ o ∈ outs, ∃ e ∈ blockEntries entries g.1,
        o.2 = e.actualSize ∧ e.actualSize = e.declaredSize) := by
  subst hgroups
  refine ⟨?_, chunk_keys_lt _ (sortByIdx_sorted withIdx), fun i => ?_,
    fun g hg outs dr hscan => scanBlock_ok _ _ _ _ hscan⟩
  · rw [szGroups, hres]
    show Except.map _ (szRequireIdx (szBuildNameLookup resolved)) = _
    rw [hidx]
    rfl
  · rw [mem_chunk_keys]
    constructor
    · intro h
      obtain ⟨x, hx, hxe⟩ := List.mem_map.mp h
      exact List.mem_map.mpr ⟨x, (mem_sortByIdx x withIdx).mp hx, hxe⟩
    · intro h
      obtain ⟨x, hx, hxe⟩ := List.mem_map.mp h
      exact List.mem_map.mpr ⟨x, (mem_sortByIdx x withIdx).mpr hx, hxe⟩

/-- Witness for c3_solid_block_batching on the concrete three-entry archive:
    blocks 0 and 1 each get exactly one decoder, with A and C batched in
    block 1. -/
theorem c3_solid_block_batching_witness :
    szGroups c3DemoEntries ["A", "B", "C"] =
      .ok [(0, [("B", "B")]), (1, [("C", "C"), ("A", "A")])] ∧
    (([(0, [("B", "B")]), (1, [("C", "C"), ("A", "A")])].map
      Prod.fst).Pairwise (· < ·)) ∧
    (∀ i, i ∈ [(0, [("B", "B")]), (1, [("C", "C"), ("A", "A")])].map
        Prod.fst ↔
      i ∈ [("A", "A", 1), ("B", "B", 0), ("C", "C", 1)].map
        (fun t => t.2.2)) ∧
    (∀ g ∈ [(0, [("B", "B")]), (1, [("C", "C"), ("A", "A")])],
      ∀ outs dr,
      scanBlock (blockEntries c3DemoEntries g.1) g.2 = .ok (outs, dr) →
      (outs.map Prod.fst).Perm (g.2.map Prod.snd) ∧
      ∀ o ∈ outs, ∃ e ∈ blockEntries c3DemoEntries g.1,
        o.2 = e.actualSize ∧ e.actualSize = e.declaredSize) :=
  c3_solid_block_batching c3DemoEntries ["A", "B", "C"]
    [("A", ("A", some 1)), ("B", ("B", some 0)), ("C", ("C", some 1))]
    [("A", "A", 1), ("B", "B", 0), ("C", "C", 1)]
    [(0, [("B", "B")]), (1, [("C", "C"), ("A", "A")])]
    rfl rfl rfl

/-- C6 counterexample: the zip adapter has no case-insensitive fallback. An
    archive holding Foo/Bar.DDS, asked for foo/bar.dds (which matches
    exactly one entry up to case but is not an exact match), returns a
    pathNotFound error instead of resolving. -/
theorem c6_zip_errors_on_case_mismatch :
    zipGetManyHandles [c6ZipEntry] ["foo/bar.dds"] =
      .error (.pathNotFound "foo/bar.dds") ∧
    lowerStr (normPath c6ZipEntry.name) = lowerStr "foo/bar.dds" ∧
    normPath c6ZipEntry.name ≠ "foo/bar.dds" :=
  ⟨rfl, rfl, by decide⟩

/-- Every handle returned by the zip per-entry extraction loop carries
    exactly as many bytes as its entry declares. -/
theorem zipExtractAll_ok (entries : List ZipEntry)
    (resolved : List (String × String)) (outs : List (String × Nat))
    (h : zipExtractAll entries resolved = .ok outs) :
    ∀ o ∈ outs, ∃ e ∈ entries, o.2 = e.actualSize ∧
      e.actualSize = e.declaredSize := by
  induction resolved generalizing outs with
  | nil =>
    simp only [zipExtractAll] at h
    have : ([] : List (String × Nat)) = outs := Except.ok.inj h
    subst this
    exact fun o ho => absurd ho (List.not_mem_nil o)
  | cons pr rest ih =>
    obtain ⟨p, name⟩ := pr
    simp only [zipExtractAll] at h
    cases hx : zipExtractOne entries p name with
    | error err => rw [hx] at h; simp [Except.bind] at h
    | ok hd =>
      rw [hx] at h
      cases hrest : zipExtractAll entries rest with
      | error err => rw [hrest] at h; simp [Except.bind, Except.map] at h
      | ok tl =>
        rw [hrest] at h
        simp only [Except.bind, Except.map] at h
        have : hd :: tl = outs := Except.ok.inj h
        subst this
        intro o ho
        rcases List.mem_cons.mp ho with rfl | ho2
        · simp only [zipExtractOne] at hx
          cases hf : entries.find? (fun e2 => e2.name == name) with
          | none => rw [hf] at hx; cases hx
          | some e =>
            rw [hf] at hx
            simp only at hx
            split at hx
            next hsz =>
              have : (p, e.actualSize) = o := Except.ok.inj hx
              subst this
              exact ⟨e, List.mem_of_find?_eq_some hf, rfl, hsz⟩
            next => cases hx
        · exact ih tl hrest o ho2

/-- Every handle returned by zip get_many_handles is full-size. -/
theorem zipGetManyHandles_ok (entries : List ZipEntry)
    (requested : List String) (outs : List (String × Nat))
    (h : zipGetManyHandles entries requested = .ok outs) :
    ∀ o ∈ outs, ∃ e ∈ entries, o.2 = e.actualSize ∧
      e.actualSize = e.declaredSize := by
  rw [zipGetManyHandles] at h
  cases h1 : listZipPaths entries with
  | error err => rw [h1] at h; simp [Except.bind] at h
  | ok listed =>
    rw [h1] at h
    simp only [Except.bind] at h
    cases h2 : zipResolve (zipPathLookup listed) requested with
    | error err => rw [h2] at h; simp at h
    | ok resolved =>
      rw [h2] at h
      simp only at h
      exact zipExtractAll_ok entries resolved outs h

/-- Every handle returned across the 7z block groups is full-size. -/
theorem szRunGroups_ok (entries : List SZEntry)
    (groups : List (Nat × List (String × String)))
    (outs : List (String × Nat))
    (h : szRunGroups entries groups = .ok outs) :
    ∀ o ∈ outs, ∃ e ∈ entries, o.2 = e.actualSize ∧
      e.actualSize = e.declaredSize := by
  induction groups generalizing outs with
  | nil =>
    simp only [szRunGroups] at h
    have : ([] : List (String × Nat)) = outs := Except.ok.inj h
    subst this
    exact fun o ho => absurd ho (List.not_mem_nil o)
  | cons g rest ih =>
    obtain ⟨i, lkp⟩ := g
    simp only [szRunGroups] at h
    cases hs : scanBlock (blockEntries entries i) lkp with
    | error err => rw [hs] at h; simp [Except.bind] at h
    | ok r =>
      rw [hs] at h
      cases hrest : szRunGroups entries rest with
      | error err => rw [hrest] at h; simp [Except.bind, Except.map] at h
      | ok tl =>
        rw [hrest] at h
        simp only [Except.bind, Except.map] at h
        have : r.1 ++ tl = outs := Except.ok.inj h
        subst this
        intro o ho
        rcases List.mem_append.mp ho with ho2 | ho2
        · obtain ⟨_, hall⟩ := scanBlock_ok (blockEntries entries i) lkp r.1 r.2
            (by rw [hs])
          obtain ⟨e, he, hsz⟩ := hall o ho2
          exact ⟨e, (List.mem_filter.mp he).1, hsz⟩
        · exact ih tl hrest o ho2

/-- Every handle returned by 7z get_many_handles is full-size. -/
theorem szGetManyHandles_ok (entries : List SZEntry)
    (requested : List String) (outs : List (String × Nat))
    (h : szGetManyHandles entries requested = .ok outs) :
    ∀ o ∈ outs, ∃ e ∈ entries, o.2 = e.actualSize ∧
      e.actualSize = e.declaredSize := by
  rw [szGetManyHandles] at h
  cases h1 : szGroups entries requested with
  | error err => rw [h1] at h; simp [Except.bind] at h
  | ok groups =>
    rw [h1] at h
    simp only [Except.bind] at h
    exact szRunGroups_ok entries groups outs h

/-- A single-entry zip archive whose decoder yields the wrong byte count
    fails with a size-mismatch error naming both counts. -/
theorem zipSizeMismatch (e : ZipEntry)
    (hfile : e.isFile = true) (henc : e.enclosed = true)
    (hmm : e.actualSize ≠ e.declaredSize) :
    zipGetManyHandles [e] [normPath e.name] =
      .error (.sizeMismatch e.declaredSize e.actualSize) := by
  have hlist : listZipPaths [e] = .ok [(e.name, normPath e.name)] := by
    simp [listZipPaths, hfile, henc]
    rfl
  rw [zipGetManyHandles, hlist]
  simp only [Except.bind]
  have hbp : (normPath e.name == normPath e.name) = true := by simp
  have hbn : (e.name == e.name) = true := by simp
  simp [zipPathLookup, assocUpsert, zipResolve, assocRemove, hbp,
    zipExtractAll, zipExtractOne, List.find?, hbn, hmm, Except.bind,
    Except.map]

/-- A single-entry 7z archive whose block decoder yields the wrong byte
    count fails with a size-mismatch error naming both counts. -/
theorem szSizeMismatch (e : SZEntry) (i : Nat)
    (hdir : e.isDir = false) (hblk : e.blockIdx = some i)
    (hmm : e.actualSize ≠ e.declaredSize) :
    szGetManyHandles [e] [normPath e.name] =
      .error (.sizeMismatch e.declaredSize e.actualSize) := by
  have hfilter : listSZPaths [e] = [(e.name, normPath e.name, e.blockIdx)] := by
    simp [listSZPaths, List.filter, hdir]
  have hlkp : szPathLookup [e] = [(normPath e.name, (e.name, e.blockIdx))] := by
    simp [szPathLookup, hfilter, assocUpsert]
  have hbp : (normPath e.name == normPath e.name) = true := by simp
  have hres : szResolve (szPathLookup [e]) [normPath e.name] =
      .ok [(normPath e.name, (e.name, e.blockIdx))] := by
    rw [hlkp]
    simp [szResolve, szResolveOne, assocRemove, hbp]
    rfl
  rw [szGetManyHandles, szGroups, hres]
  have hreq : szRequireIdx (szBuildNameLookup
      [(normPath e.name, (e.name, e.blockIdx))]) =
      .ok [(e.name, normPath e.name, i)] := by
    simp [szBuildNameLookup, assocUpsert, hblk, szRequireIdx]
    rfl
  simp only [Except.bind]
  rw [hreq]
  have hbe : blockEntries [e] i = [e] := by
    simp [blockEntries, List.filter, hdir, hblk]
  simp [sortByIdx, insertByIdx, chunkByIdx, szRunGroups, hbe, scanBlock,
    assocRemove, hmm, Except.map, Except.bind]

/-- C7: a format adapter never returns a handle to a truncated extraction.
    Whenever zip or 7z get_many_handles succeeds, every returned handle
    carries exactly the byte count the entry declares; and when the copied
    byte count differs from the declared size, both adapters fail with an
    error identifying the expected and the actual counts. -/
theorem c7_no_silent_truncation :
    (∀ (entries : List ZipEntry) (requested : List String)
        (outs : List (String × Nat)),
      zipGetManyHandles entries requested = .ok outs →
      ∀ o ∈ outs, ∃ e ∈ entries, o.2 = e.actualSize ∧
        e.actualSize = e.declaredSize) ∧
    (∀ (entries : List SZEntry) (requested : List String)
        (outs : List (String × Nat)),
      szGetManyHandles entries requested = .ok outs →
      ∀ o ∈ outs, ∃ e ∈ entries, o.2 = e.actualSize ∧
        e.actualSize = e.declaredSize) ∧
    (∀ (e : ZipEntry), e.isFile = true → e.enclosed = true →
      e.actualSize ≠ e.declaredSize →
      zipGetManyHandles [e] [normPath e.name] =
        .error (.sizeMismatch e.declaredSize e.actualSize)) ∧
    (∀ (e : SZEntry) (i : Nat), e.isDir = false → e.blockIdx = some i →
      e.actualSize ≠ e.declaredSize →
      szGetManyHandles [e] [normPath e.name] =
        .error (.sizeMismatch e.declaredSize e.actualSize)) :=
  ⟨zipGetManyHandles_ok, szGetManyHandles_ok,
   fun e hf he hmm => zipSizeMismatch e hf he hmm,
   fun e i hd hb hmm => szSizeMismatch e i hd hb hmm⟩

/-- Witness for c7_no_silent_truncation: a full-size entry is served with
    its declared byte count, and a truncated entry (7 declared, 6 copied)
    is rejected with the error naming 7 and 6, in both adapters. -/
theorem c7_no_silent_truncation_witness :
    (∀ o ∈ [("X", 7)], ∃ e ∈ [(⟨"X", true, true, 7, 7⟩ : ZipEntry)],
      o.2 = e.actualSize ∧ e.actualSize = e.declaredSize) ∧
    zipGetManyHandles [(⟨"Y", true, true, 7, 6⟩ : ZipEntry)]
        [normPath "Y"] = .error (.sizeMismatch 7 6) ∧
    szGetManyHandles [(⟨"Z", false, some 0, 7, 6⟩ : SZEntry)]
        [normPath "Z"] = .error (.sizeMismatch 7 6) :=
  ⟨c7_no_silent_truncation.1 [⟨"X", true, true, 7, 7⟩] ["X"] [("X", 7)] rfl,
   c7_no_silent_truncation.2.2.1 ⟨"Y", true, true, 7, 6⟩ rfl rfl (by decide),
   c7_no_silent_truncation.2.2.2 ⟨"Z", false, some 0, 7, 6⟩ 0 rfl rfl
     (by decide)⟩

/-- C9: the whitelist is exactly the paths whose extension lowercases to
    dds; for a whitelisted target path the copy succeeds exactly when the
    byte count matches the declared size, regardless of the running hash;
    for any other path it succeeds exactly when both the size and the
    declared hash match, so a mismatch of either is an error. -/
theorem c9_whitelist_size_only (hashFn : List Nat → Nat) (p : String)
    (size hash : Nat) (src : List Nat) :
    (is_whitelisted_by_path p = true ↔
      (pathExtension p).map lowerStr = some "dds") ∧
    (is_whitelisted_by_path p = true →
      (performCopy hashFn p size hash src = .ok () ↔ src.length = size)) ∧
    (is_whitelisted_by_path p = false →
      (performCopy hashFn p size hash src = .ok () ↔
        src.length = size ∧ hashFn src = hash)) := by
  refine ⟨?_, fun hw => ?_, fun hw => ?_⟩
  · rw [is_whitelisted_by_path]
    cases hx : pathExtension p with
    | none => simp
    | some ext =>
      simp only [Option.map_some, Option.some.injEq,
        EXTENSION_HASH_WHITELIST]
      rw [List.contains_cons]
      simp [beq_iff_eq]
  · rw [performCopy, if_pos hw]
    by_cases hlen : src.length = size
    · simp [hlen]
    · simp [hlen]
  · rw [performCopy, if_neg (by rw [hw]; exact Bool.false_ne_true)]
    by_cases hlen : src.length = size
    · by_cases hh : hashFn src = hash
      · simp [hlen, hh]
      · simp [hlen, hh]
    · simp [hlen]

/-- Witness for c9_whitelist_size_only: the dds path validates only the size
    (succeeding although the running digest 18 differs from the declared
    hash 999), while the bin path demands both size and hash. -/
theorem c9_whitelist_size_only_witness :
    (performCopy (fun l => l.sum) "textures/a.DDS" 3 999 [5, 6, 7] =
        .ok () ↔ ([5, 6, 7] : List Nat).length = 3) ∧
    (performCopy (fun l => l.sum) "meshes/a.bin" 3 18 [5, 6, 7] =
        .ok () ↔ ([5, 6, 7] : List Nat).length = 3 ∧
          (fun (l : List Nat) => l.sum) [5, 6, 7] = 18) :=
  ⟨(c9_whitelist_size_only (fun l => l.sum) "textures/a.DDS" 3 999
      [5, 6, 7]).2.1 (by decide),
   (c9_whitelist_size_only (fun l => l.sum) "meshes/a.bin" 3 18
      [5, 6, 7]).2.2 (by decide)⟩

/-- Decoding inverts the alphabet on six-bit values. -/
theorem decodeChar_encodeChar : ∀ s, s < 64 →
    decodeChar (encodeChar s) = some s := by decide

/-- No alphabet character is the padding character. -/
theorem encodeChar_ne_pad : ∀ s, s < 64 → encodeChar s ≠ '=' := by decide

/-- Unfolding of the base64 decoder on a non-final four-character group. -/
theorem decodeGroups_cons (c0 c1 c2 c3 : Char) (rest : List Char)
    (s0 s1 s2 s3 : Nat)
    (h0 : decodeChar c0 = some s0) (h1 : decodeChar c1 = some s1)
    (h2 : decodeChar c2 = some s2) (h3 : decodeChar c3 = some s3)
    (hc2 : c2 ≠ '=') (hc3 : c3 ≠ '=') :
    decodeGroups (c0 :: c1 :: c2 :: c3 :: rest) =
      (decodeGroups rest).map (fun bs =>
        (s0 * 4 + s1 / 16) :: ((s1 % 16) * 16 + s2 / 4) ::
          ((s2 % 4) * 64 + s3) :: bs) := by
  simp only [decodeGroups]
  rw [if_neg hc2, if_neg hc3, h0, h1, h2, h3]

/-- Unfolding of the base64 decoder on the final one-padded group. -/
theorem decodeGroups_pad1 (c0 c1 c2 : Char) (s0 s1 s2 : Nat)
    (h0 : decodeChar c0 = some s0) (h1 : decodeChar c1 = some s1)
    (h2 : decodeChar c2 = some s2)
    (hc2 : c2 ≠ '=') (hs2 : s2 % 4 = 0) :
    decodeGroups [c0, c1, c2, '='] =
      some [s0 * 4 + s1 / 16, (s1 % 16) * 16 + s2 / 4] := by
  simp only [decodeGroups]
  rw [if_neg hc2]
  simp only [if_true]
  rw [h0, h1, h2]
  simp only
  rw [if_pos hs2]

/-- Decoding inverts encoding on any eight-byte vector. -/
theorem decode_encode_eight (b0 b1 b2 b3 b4 b5 b6 b7 : Nat)
    (l0 : b0 < 256) (l1 : b1 < 256) (l2 : b2 < 256) (l3 : b3 < 256)
    (l4 : b4 < 256) (l5 : b5 < 256) (l6 : b6 < 256) (l7 : b7 < 256) :
    decodeGroups (encodeGroups [b0, b1, b2, b3, b4, b5, b6, b7]) =
      some [b0, b1, b2, b3, b4, b5, b6, b7] := by
  have he : encodeGroups [b0, b1, b2, b3, b4, b5, b6, b7] =
      encodeChar (b0 / 4) :: encodeChar ((b0 % 4) * 16 + b1 / 16) ::
      encodeChar ((b1 % 16) * 4 + b2 / 64) :: encodeChar (b2 % 64) ::
      encodeChar (b3 / 4) :: encodeChar ((b3 % 4) * 16 + b4 / 16) ::
      encodeChar ((b4 % 16) * 4 + b5 / 64) :: encodeChar (b5 % 64) ::
      [encodeChar (b6 / 4), encodeChar ((b6 % 4) * 16 + b7 / 16),
       encodeChar ((b7 % 16) * 4), '='] := rfl
  rw [he]
  rw [decodeGroups_cons _ _ _ _ _ _ _ _ _
    (decodeChar_encodeChar _ (by omega)) (decodeChar_encodeChar _ (by omega))
    (decodeChar_encodeChar _ (by omega)) (decodeChar_encodeChar _ (by omega))
    (encodeChar_ne_pad _ (by omega)) (encodeChar_ne_pad _ (by omega))]
  rw [decodeGroups_cons _ _ _ _ _ _ _ _ _
    (decodeChar_encodeChar _ (by omega)) (decodeChar_encodeChar _ (by omega))
    (decodeChar_encodeChar _ (by omega)) (decodeChar_encodeChar _ (by omega))
    (encodeChar_ne_pad _ (by omega)) (encodeChar_ne_pad _ (by omega))]
  rw [decodeGroups_pad1 _ _ _ _ _ _
    (decodeChar_encodeChar _ (by omega)) (decodeChar_encodeChar _ (by omega))
    (decodeChar_encodeChar _ (by omega))
    (encodeChar_ne_pad _ (by omega)) (by omega)]
  simp only [decodeGroups, Option.map_some', Option.some.injEq,
    List.cons.injEq, and_true]
  omega

/-- C10: encoding a u64 hash with to_base_64_from_u64 and decoding it with
    to_u64_from_base_64 returns exactly the original value, so comparing a
    recomputed hash against a manifest hash encoded by the same scheme never
    spuriously fails. -/
theorem c10_base64_roundtrip (h : Nat) (hlt : h < 2 ^ 64) :
    to_u64_from_base_64 (to_base_64_from_u64 h) = some h := by
  rw [to_u64_from_base_64, to_base_64_from_u64]
  have hdata : (String.mk (encodeGroups (u64ToNeBytes h))).data =
      encodeGroups (u64ToNeBytes h) := rfl
  rw [hdata, u64ToNeBytes]
  rw [decode_encode_eight _ _ _ _ _ _ _ _
    (Nat.mod_lt _ (by norm_num)) (Nat.mod_lt _ (by norm_num))
    (Nat.mod_lt _ (by norm_num)) (Nat.mod_lt _ (by norm_num))
    (Nat.mod_lt _ (by norm_num)) (Nat.mod_lt _ (by norm_num))
    (Nat.mod_lt _ (by norm_num)) (Nat.mod_lt _ (by norm_num))]
  simp only [Option.some_bind, u64FromNeBytes, Option.some.injEq]
  omega

/-- Witness for c10_base64_roundtrip at a concrete hash value. -/
theorem c10_base64_roundtrip_witness :
    to_u64_from_base_64 (to_base_64_from_u64 123456789123456789) =
      some 123456789123456789 :=
  c10_base64_roundtrip 123456789123456789 (by norm_num)

/-- The last event of a non-empty trace whose head is not the abort event is
    the last event of its tail. -/
theorem getLast_cons_abort (e : Ev2) (rest : List Ev2)
    (hne : e ≠ Ev2.yieldErr)
    (h : (e :: rest).getLast? = some Ev2.yieldErr) :
    rest.getLast? = some Ev2.yieldErr := by
  cases rest with
  | nil =>
    simp [List.getLast?] at h
    exact absurd h hne
  | cons b bs => rwa [List.getLast?_cons_cons] at h

/-- Invariants of every valid run of the outcome-aware buffered pipeline,
    relative to any failing index f: the pipeline never yields past f, every
    yielded index succeeded, no future at window distance n or more past f
    ever starts, and a trace ending in the abort event aborted on a failed
    index. -/
theorem runTraceB_inv (ok : Nat → Bool) (n m f : Nat) (hf : ok f = false) :
    ∀ (tr : List Ev2) (s0 s : BufState),
    runTraceB ok n m s0 tr = some s →
    (∀ k, k < s0.yielded → ok k = true) →
    s0.yielded ≤ f →
    (s.yielded ≤ f ∧
     (∀ k, k < s.yielded → ok k = true) ∧
     (∀ i, Ev2.start i ∈ tr → i < f + n) ∧
     (tr.getLast? = some Ev2.yieldErr → ok s.yielded = false)) := by
  intro tr
  induction tr with
  | nil =>
    intro s0 s hval hpre hle
    simp only [runTraceB, Option.some.injEq] at hval
    subst hval
    refine ⟨hle, hpre, fun i hi => absurd hi (List.not_mem_nil _),
      fun h => ?_⟩
    simp at h
  | cons e rest ih =>
    intro s0 s hval hpre hle
    cases e with
    | start i =>
      simp only [runTraceB] at hval
      split at hval
      next hc =>
        obtain ⟨hc1, hc2, hc3⟩ := hc
        obtain ⟨r1, r2, r3, r4⟩ := ih _ s hval hpre hle
        refine ⟨r1, r2, fun i2 hi2 => ?_,
          fun h => r4 (getLast_cons_abort _ _ (by simp) h)⟩
        rcases List.mem_cons.mp hi2 with heq | hi2
        · have hii : i2 = i := by injection heq
          omega
        · exact r3 i2 hi2
      next => cases hval
    | finish i =>
      simp only [runTraceB] at hval
      split at hval
      next hc =>
        obtain ⟨r1, r2, r3, r4⟩ := ih _ s hval hpre hle
        refine ⟨r1, r2, fun i2 hi2 => ?_,
          fun h => r4 (getLast_cons_abort _ _ (by simp) h)⟩
        rcases List.mem_cons.mp hi2 with heq | hi2
        · cases heq
        · exact r3 i2 hi2
      next => cases hval
    | yieldOk =>
      simp only [runTraceB] at hval
      split at hval
      next hc =>
        obtain ⟨hc1, hc2, hc3⟩ := hc
        have hpre2 : ∀ k, k < s0.yielded + 1 → ok k = true := by
          intro k hk
          rcases Nat.lt_or_ge k s0.yielded with h | h
          · exact hpre k h
          · have : k = s0.yielded := by omega
            subst this; exact hc3
        have hle2 : s0.yielded + 1 ≤ f := by
          rcases Nat.lt_or_eq_of_le hle with h | h
          · omega
          · rw [h] at hc3; rw [hc3] at hf; cases hf
        obtain ⟨r1, r2, r3, r4⟩ := ih _ s hval hpre2 hle2
        refine ⟨r1, r2, fun i2 hi2 => ?_,
          fun h => r4 (getLast_cons_abort _ _ (by simp) h)⟩
        rcases List.mem_cons.mp hi2 with heq | hi2
        · cases heq
        · exact r3 i2 hi2
      next => cases hval
    | yieldErr =>
      simp only [runTraceB] at hval
      split at hval
      next hc =>
        obtain ⟨hc1, hc2, hc3, hc4⟩ := hc
        have hs : s0 = s := Option.some.inj hval
        subst hs
        subst hc4
        refine ⟨hle, hpre, fun i2 hi2 => ?_, fun _ => hc3⟩
        rcases List.mem_cons.mp hi2 with heq | hi2
        · cases heq
        · exact absurd hi2 (List.not_mem_nil _)
      next => cases hval

/-- C2 counterexample: a complete, valid window-2 execution of the
    five-directive batch in which directives 3 and 5 (sorted indices 2 and
    4) fail. The pipeline aborts while yielding the first failure: only
    directives 0, 1, 2 ever start (final state begun = 3), directives at
    indices 3 and 4 are never attempted, and the second failure is never
    surfaced - so the batch neither attempts every other directive nor
    returns an error collection enumerating every failure. -/
theorem c2_buffered_aborts_on_first_failure :
    runTraceB c2Ok 2 (sortByPriority c2Batch).length initBuf c2TraceB =
      some ⟨3, 2, [2, 1, 0]⟩ ∧
    c2Batch.length = 5 ∧
    c2Ok 2 = false ∧ c2Ok 4 = false ∧
    Ev2.start 3 ∉ c2TraceB ∧ Ev2.start 4 ∉ c2TraceB ∧
    c2TraceB.getLast? = some Ev2.yieldErr := by
  refine ⟨rfl, rfl, rfl, rfl, by decide, by decide, rfl⟩

/-- C2 amended: when a directive of the sorted batch fails, the
    try_buffered(n) + try_for_each pipeline surfaces only the first failure:
    in every valid execution it never yields past a failing index, every
    index it did yield succeeded, no directive at window distance n or more
    past a failing index is ever attempted, and an aborting execution ends
    on a failed index - whose single error is what handle_directives wraps
    into the returned one-element vector. -/
theorem c2_amended_first_error_window (handle : DirectiveItem → Except E Unit)
    (ds : List DirectiveItem) (n f : Nat) (tr : List Ev2) (s : BufState)
    (hval : runTraceB
      (fun i => (handle ((sortByPriority ds).getD i default)).isOk)
      n (sortByPriority ds).length initBuf tr = some s)
    (hf : (handle ((sortByPriority ds).getD f default)).isOk = false) :
    s.yielded ≤ f ∧
    (∀ k, k < s.yielded →
      (handle ((sortByPriority ds).getD k default)).isOk = true) ∧
    (∀ i, Ev2.start i ∈ tr → i < f + n) ∧
    (tr.getLast? = some Ev2.yieldErr →
      (handle ((sortByPriority ds).getD s.yielded default)).isOk = false) := by
  obtain ⟨r1, r2, r3, r4⟩ := runTraceB_inv
    (fun i => (handle ((sortByPriority ds).getD i default)).isOk)
    n (sortByPriority ds).length f hf tr initBuf s hval
    (fun k hk => absurd hk (Nat.not_lt_zero k)) (Nat.zero_le f)
  exact ⟨r1, r2, r3, r4⟩

/-- Witness for c2_amended_first_error_window on the concrete window-2
    execution: the run aborts at index 2 having yielded two successes, and
    no directive from index 4 = 2 + 2 on is ever started. -/
theorem c2_amended_first_error_window_witness :
    (⟨3, 2, [2, 1, 0]⟩ : BufState).yielded ≤ 2 ∧
    (∀ k, k < (⟨3, 2, [2, 1, 0]⟩ : BufState).yielded →
      (c2HandleTwo ((sortByPriority c2Batch).getD k default)).isOk = true) ∧
    (∀ i, Ev2.start i ∈ c2TraceB → i < 2 + 2) ∧
    (c2TraceB.getLast? = some Ev2.yieldErr →
      (c2HandleTwo ((sortByPriority c2Batch).getD
        (⟨3, 2, [2, 1, 0]⟩ : BufState).yielded default)).isOk = false) :=
  c2_amended_first_error_window c2HandleTwo c2Batch 2 2 c2TraceB
    ⟨3, 2, [2, 1, 0]⟩ rfl rfl

/-- Removal misses when no key of the association list equals the probe. -/
theorem assocRemove_none_of (m : List (String × A)) (k : String)
    (h : ∀ kv ∈ m, kv.1 ≠ k) : assocRemove m k = none := by
  induction m with
  | nil => rfl
  | cons kv rest ih =>
    obtain ⟨k2, v2⟩ := kv
    simp only [assocRemove]
    have hne : (k2 == k) = false := by
      rw [beq_eq_false_iff_ne]
      exact h (k2, v2) (List.mem_cons_self _ _)
    simp [hne, ih (fun kv2 hkv => h kv2 (List.mem_cons_of_mem _ hkv))]

/-- When the filter keeps exactly one element, find? returns it. -/
theorem find_of_filter_singleton (p : A → Bool) (l : List A) (a : A)
    (h : l.filter p = [a]) : l.find? p = some a := by
  induction l with
  | nil => simp [List.filter] at h
  | cons x xs ih =>
    cases hx : p x with
    | true =>
      simp only [List.filter_cons, hx, if_true, List.cons.injEq] at h
      obtain ⟨rfl, h2⟩ := h
      simp [List.find?, hx]
    | false =>
      simp only [List.filter_cons, hx] at h
      simp only [List.find?, hx]
      exact ih (by simpa using h)

/-- Scanning archive entries against an exhausted lookup keeps nothing. -/
theorem w7Scan_nil_lookup (es : List String) : w7Scan [] es = ([], []) := by
  induction es with
  | nil => rfl
  | cons e rest ih => simp [w7Scan, assocRemove, ih]

/-- General 7z case-insensitive fallback: over any archive, a request with
    no exact path match whose lowercased form matches exactly one listed
    path resolves to that entry. -/
theorem szResolveFallbackUnique (entries : List SZEntry) (q : String)
    (mv : String × (String × Option Nat))
    (hexact : ∀ kv ∈ szPathLookup entries, kv.1 ≠ q)
    (huniq : (szPathLookup entries).filter
      (fun kv => lowerStr kv.1 == lowerStr q) = [mv]) :
    szResolve (szPathLookup entries) [q] = .ok [(q, mv.2)] := by
  have hrem := assocRemove_none_of (szPathLookup entries) q hexact
  have hfind := find_of_filter_singleton
    (fun kv => lowerStr kv.1 == lowerStr q) (szPathLookup entries) mv huniq
  simp only [szResolve, szResolveOne]
  rw [hrem, hfind]
  rfl

/-- General absence of a zip fallback: over any archive, a request equal to
    no listed path fails with pathNotFound, case-insensitive matches
    notwithstanding. -/
theorem zipNoFallback (entries : List ZipEntry)
    (listed : List (String × String)) (q : String)
    (hlist : listZipPaths entries = .ok listed)
    (hexact : ∀ kv ∈ zipPathLookup listed, kv.1 ≠ q) :
    zipGetManyHandles entries [q] = .error (.pathNotFound q) := by
  rw [zipGetManyHandles, hlist]
  simp only [Except.bind]
  have hrem := assocRemove_none_of (zipPathLookup listed) q hexact
  simp [zipResolve, hrem]

/-- General wrapped-7zip case-insensitivity: over any archive, a request
    resolves to the first entry whose lowercased path equals its lowercased
    form, because both sides of the lookup are lowercased. -/
theorem w7CaseInsensitive (entries : List String) (q e : String)
    (hfind : entries.find? (fun x => lowerStr x == lowerStr q) = some e) :
    w7Resolve entries [q] = .ok [e] := by
  suffices hscan : w7Scan [(lowerStr q, q)] entries = ([], [e]) by
    rw [w7Resolve]
    simp only [List.foldl, assocUpsert]
    rw [hscan]
    rfl
  induction entries with
  | nil => simp [List.find?] at hfind
  | cons x rest ih =>
    cases hx : (lowerStr x == lowerStr q) with
    | true =>
      have he : x = e := by
        simp only [List.find?, hx, Option.some.injEq] at hfind
        exact hfind
      subst he
      have hb : (lowerStr q == lowerStr x) = true := by
        have := eq_of_beq hx
        simp [this]
      simp only [w7Scan, assocRemove, hb, if_true]
      rw [w7Scan_nil_lookup rest]
    | false =>
      have hfind2 : rest.find? (fun x2 => lowerStr x2 == lowerStr q) =
          some e := by
        simpa [List.find?, hx] using hfind
      have hb : (lowerStr q == lowerStr x) = false := by
        rw [beq_eq_false_iff_ne] at hx ⊢
        exact fun h => hx h.symm
      simp only [w7Scan, assocRemove, hb]
      exact ih hfind2

/-- C6 amended: the case-insensitive fallback is not universal across the
    format adapters. The 7z adapter resolves a request with no exact match
    but exactly one case-insensitive match to that entry (after a warning);
    the external-tool 7z wrapper matches case-insensitively by construction,
    lowercasing both the requested and the listed paths; but the zip adapter
    has no fallback: a request equal to no listed path fails with a
    path-not-found error even when an entry matches it case-insensitively. -/
theorem c6_amended_case_fallback :
    (∀ (entries : List SZEntry) (q : String)
        (mv : String × (String × Option Nat)),
      (∀ kv ∈ szPathLookup entries, kv.1 ≠ q) →
      (szPathLookup entries).filter
        (fun kv => lowerStr kv.1 == lowerStr q) = [mv] →
      szResolve (szPathLookup entries) [q] = .ok [(q, mv.2)]) ∧
    (∀ (entries : List String) (q e : String),
      entries.find? (fun x => lowerStr x == lowerStr q) = some e →
      w7Resolve entries [q] = .ok [e]) ∧
    (∀ (entries : List ZipEntry) (listed : List (String × String))
        (q : String),
      listZipPaths entries = .ok listed →
      (∀ kv ∈ zipPathLookup listed, kv.1 ≠ q) →
      zipGetManyHandles entries [q] = .error (.pathNotFound q)) :=
  ⟨fun entries q mv hexact huniq =>
      szResolveFallbackUnique entries q mv hexact huniq,
   fun entries q e hfind => w7CaseInsensitive entries q e hfind,
   fun entries listed q hlist hexact =>
      zipNoFallback entries listed q hlist hexact⟩

/-- Witness for c6_amended_case_fallback on the archive holding Foo/Bar.DDS
    and the request foo/bar.dds: the 7z adapter and the external wrapper
    resolve it, the zip adapter errors. -/
theorem c6_amended_case_fallback_witness :
    szResolve (szPathLookup [c6SZEntry]) ["foo/bar.dds"] =
      .ok [("foo/bar.dds", ("Foo/Bar.DDS", some 0))] ∧
    w7Resolve ["Foo/Bar.DDS"] ["foo/bar.dds"] = .ok ["Foo/Bar.DDS"] ∧
    zipGetManyHandles [c6ZipEntry] ["foo/bar.dds"] =
      .error (.pathNotFound "foo/bar.dds") :=
  ⟨c6_amended_case_fallback.1 [c6SZEntry] "foo/bar.dds"
      ("Foo/Bar.DDS", ("Foo/Bar.DDS", some 0)) (by decide) rfl,
   c6_amended_case_fallback.2.1 ["Foo/Bar.DDS"] "foo/bar.dds"
      "Foo/Bar.DDS" rfl,
   c6_amended_case_fallback.2.2 [c6ZipEntry] [("Foo/Bar.DDS", "Foo/Bar.DDS")]
      "foo/bar.dds" rfl (by decide)⟩
